import Mathlib

/-!
Verification of the text-similarity pipeline (`main.py`).

The program computes a similarity score between two documents:
`TextProcessor.preprocess` (regex clean-up), `TextProcessor.segment`
(jieba segmentation followed by stopword filtering),
`SimilarityCalculator.calculate` (scikit-learn `TfidfVectorizer` with
default settings plus `cosine_similarity`), and `main` (round the score to
two decimal places and write it to the result file).

Strings are modelled as `List Char` (Unicode scalar sequences), real
arithmetic models float arithmetic, and the reporting stage is modelled
over `ℚ` (every float is rational).  jieba's segmentation is external to
the repository, so the segmentation result enters the model as an
arbitrary list of words; the stopword filter applied to it is modelled
exactly.
-/

/-! ## Character classes

`pyIsSpace` models the whitespace class used by Python's `re` module and
`str.strip` on the characters relevant here (ASCII controls, space and
the Unicode space separators). -/

def spaceCodes : List Nat :=
  [0x20, 0x9, 0xA, 0xB, 0xC, 0xD, 0x1C, 0x1D, 0x1E, 0x1F, 0x85, 0xA0,
   0x1680, 0x2000, 0x2001, 0x2002, 0x2003, 0x2004, 0x2005, 0x2006, 0x2007,
   0x2008, 0x2009, 0x200A, 0x2028, 0x2029, 0x202F, 0x205F, 0x3000]

def pyIsSpace (c : Char) : Bool :=
  decide (c.toNat ∈ spaceCodes)

/-- CJK ideograph range of the regex `[一-龥]` in `preprocess`. -/
def isCJK (c : Char) : Bool :=
  decide (0x4E00 ≤ c.toNat) && decide (c.toNat ≤ 0x9FA5)

/-- Character class kept by `re.sub(r'[^一-龥a-zA-Z0-9\s]', '', text)`. -/
def isKeepChar (c : Char) : Bool :=
  isCJK c || c.isAlpha || c.isDigit || pyIsSpace c

/-- Model of `str.lower`, restricted to ASCII letters `A`-`Z` (the only
case-carrying characters that occur in this pipeline). -/
def pyToLower (c : Char) : Char :=
  if 0x41 ≤ c.toNat ∧ c.toNat ≤ 0x5A then Char.ofNat (c.toNat + 32) else c

/-- Python's `\w` (word character) restricted to the character classes that
occur in this pipeline: ASCII digits `0`-`9`, letters `A`-`Z` and `a`-`z`,
underscore, and CJK ideographs. -/
def isWordChar (c : Char) : Bool :=
  (decide (0x30 ≤ c.toNat) && decide (c.toNat ≤ 0x39)) ||
  (decide (0x41 ≤ c.toNat) && decide (c.toNat ≤ 0x5A)) ||
  (decide (0x61 ≤ c.toNat) && decide (c.toNat ≤ 0x7A)) ||
  decide (c.toNat = 0x5F) || isCJK c

/-! ## Python `str.strip` -/

/-- Model of `str.strip()`: drop leading and trailing whitespace. -/
def pyStrip (l : List Char) : List Char :=
  List.rdropWhile pyIsSpace (List.dropWhile pyIsSpace l)

/-! ## `TextProcessor.preprocess` (main.py lines 53-61) -/

/-- Scan for the first `'>'`, failing on a newline first: the non-greedy
`<.*?>` match attempt started at a `'<'` (`.` does not match `'\n'`).
Returns the suffix after the `'>'` when the tag shape matches. -/
def findGt : List Char → Option (List Char)
  | [] => none
  | c :: cs => if c = '>' then some cs else if c = '\n' then none else findGt cs

/-- Model of `re.sub(r'<.*?>', '', text)`, fuelled so that the recursion is
structural; `removeTags` supplies sufficient fuel. -/
def removeTagsF : Nat → List Char → List Char
  | 0, l => l
  | _ + 1, [] => []
  | n + 1, c :: cs =>
    if c = '<' then
      match findGt cs with
      | some rest => removeTagsF n rest
      | none => c :: removeTagsF n cs
    else c :: removeTagsF n cs

/-- Model of `re.sub(r'<.*?>', '', text)`: strip HTML-tag-shaped substrings. -/
def removeTags (l : List Char) : List Char :=
  removeTagsF l.length l

/-- Model of the regex substitution dropping special characters. -/
def filterChars (l : List Char) : List Char :=
  l.filter isKeepChar

/-- Model of the whitespace-collapsing substitution: every run becomes one
space (all but the last character of a run are dropped, the last is
replaced by a space). -/
def collapseWs : List Char → List Char
  | [] => []
  | [c] => [if pyIsSpace c then ' ' else c]
  | c :: d :: cs =>
    if pyIsSpace c && pyIsSpace d then collapseWs (d :: cs)
    else (if pyIsSpace c then ' ' else c) :: collapseWs (d :: cs)

/-- Model of `TextProcessor.preprocess`: strip tags, drop special characters,
collapse whitespace, trim. -/
def preprocess (l : List Char) : List Char :=
  pyStrip (collapseWs (filterChars (removeTags l)))

/-! ## `TextProcessor._load_stopwords` and `segment` (main.py lines 41-70) -/

/-- The built-in stopword list of `_load_stopwords`, in source order
(the Python code wraps it in `set(...)`; membership is what matters). -/
def stopwords : List (List Char) :=
  (["的", "了", "在", "是", "我", "有", "和", "就", "不", "人", "都", "一",
    "一个", "上", "也", "很", "到", "说", "要", "去", "你", "会", "着", "没有",
    "看", "好", "自己", "这", "个", "以", "他", "还", "而", "后", "之", "来",
    "及", "于", "其", "与", "所", "对", "也", "但", "并", "或", "且", "着", "了",
    "过", "呢", "吗", "吧", "啊", "呀", "啦", "之", "乎", "者", "也", "矣", "焉",
    "哉"]).map String.toList

/-- The filtering step of `TextProcessor.segment` applied to the word list
produced by `jieba.cut`: keep a word iff it is not a stopword and is
non-empty after stripping whitespace
(`word not in self.stopwords and word.strip()`). -/
def segmentWords (words : List (List Char)) : List (List Char) :=
  words.filter (fun w => decide (w ∉ stopwords) && decide (pyStrip w ≠ []))

/-- Model of the space-join in `TextProcessor.segment`: the token stream is joined
with single spaces before being handed to the vectorizer. -/
def joinTokens : List (List Char) → List Char
  | [] => []
  | [t] => t
  | t :: u :: ts => t ++ ' ' :: joinTokens (u :: ts)

/-! ## scikit-learn `TfidfVectorizer()` with default parameters

Defaults relevant here: `lowercase=True`, `token_pattern=r"(?u)\b\w\w+\b"`
(maximal word-character runs of length at least 2), `smooth_idf=True`,
`sublinear_tf=False`, `norm='l2'`.  `fit` raises `ValueError` when the
resulting vocabulary is empty. -/

/-- Split a character list into its maximal runs of word characters
(`acc` holds the reversed current run). -/
def splitRunsAux : List Char → List Char → List (List Char)
  | [], acc => if acc = [] then [] else [acc.reverse]
  | c :: cs, acc =>
    if isWordChar c then splitRunsAux cs (c :: acc)
    else if acc = [] then splitRunsAux cs []
    else acc.reverse :: splitRunsAux cs []

def splitRuns (l : List Char) : List (List Char) :=
  splitRunsAux l []

/-- The token pattern `(?u)\b\w\w+\b`: maximal word-character runs of
length at least 2, in order of occurrence. -/
def extractTokens (l : List Char) : List (List Char) :=
  (splitRuns l).filter (fun t => decide (2 ≤ t.length))

/-- The analyzer of `TfidfVectorizer()`: lowercase, then tokenize. -/
def lowerTokens (l : List Char) : List (List Char) :=
  extractTokens (l.map pyToLower)

/-- Vocabulary of the 2-document corpus: the distinct tokens occurring in
either document. -/
def vocab (A B : List (List Char)) : Finset (List Char) :=
  (A ++ B).toFinset

/-- Raw term frequency: occurrence count of a term in a document. -/
def termFreq (t : List Char) (d : List (List Char)) : Nat :=
  d.count t

/-- Document frequency over the 2-document corpus: in how many of the two
documents the term occurs (0, 1 or 2). -/
def docFreq (t : List Char) (A B : List (List Char)) : Nat :=
  (if t ∈ A then 1 else 0) + (if t ∈ B then 1 else 0)

/-- Smoothed inverse document frequency of `TfidfVectorizer`
(`smooth_idf=True`): `idf(t) = log((1 + N) / (1 + df(t))) + 1` with
`N = 2` documents.  This is also the formula the specification states. -/
noncomputable def idf (t : List Char) (A B : List (List Char)) : ℝ :=
  Real.log ((1 + 2) / (1 + (docFreq t A B : ℝ))) + 1

/-- Unnormalized TF-IDF weight: `tf(t, d) * idf(t)`. -/
noncomputable def tfidfWeight (t : List Char) (d A B : List (List Char)) : ℝ :=
  (termFreq t d : ℝ) * idf t A B

/-- Euclidean norm of a document's TF-IDF vector over the vocabulary. -/
noncomputable def tfidfNorm (d A B : List (List Char)) : ℝ :=
  Real.sqrt (∑ t ∈ vocab A B, tfidfWeight t d A B ^ 2)

/-- L2-normalized TF-IDF component (`norm='l2'`; an all-zero row is left
as zero, as `sklearn.preprocessing.normalize` does). -/
noncomputable def tfidfUnit (t : List Char) (d A B : List (List Char)) : ℝ :=
  if tfidfNorm d A B = 0 then 0 else tfidfWeight t d A B / tfidfNorm d A B

/-- Cosine similarity of the two documents' TF-IDF vectors: the dot
product of the L2-normalized rows (`cosine_similarity` renormalizes the
rows, which is the identity on already-normalized or zero rows). -/
noncomputable def tfidfScore (A B : List (List Char)) : ℝ :=
  ∑ t ∈ vocab A B, tfidfUnit t A A B * tfidfUnit t B A B

/-! ## `SimilarityCalculator.calculate` (main.py lines 77-93) -/

/-- Control-flow outcome of `calculate`: which branch runs. -/
inductive CalcBranch where
  | bothEmpty : CalcBranch
  | oneEmpty : CalcBranch
  | emptyVocab : CalcBranch
  | vectorize : List (List Char) → List (List Char) → CalcBranch
deriving DecidableEq

/-- Branch selection of `calculate`: the two `strip()`-based
short-circuits, then the vectorizer, which raises `ValueError` when both
documents yield no token (empty vocabulary). -/
def calcBranch (t1 t2 : List Char) : CalcBranch :=
  if pyStrip t1 = [] ∧ pyStrip t2 = [] then .bothEmpty
  else if pyStrip t1 = [] ∨ pyStrip t2 = [] then .oneEmpty
  else
    if lowerTokens t1 = [] ∧ lowerTokens t2 = [] then .emptyVocab
    else .vectorize (lowerTokens t1) (lowerTokens t2)

/-- Model of `SimilarityCalculator.calculate`: `none` models the uncaught
`ValueError` raised by `TfidfVectorizer.fit_transform` on an empty
vocabulary. -/
noncomputable def calculate (t1 t2 : List Char) : Option ℝ :=
  match calcBranch t1 t2 with
  | .bothEmpty => some 1
  | .oneEmpty => some 0
  | .emptyVocab => none
  | .vectorize A B => some (tfidfScore A B)

/-! ## The reporting stage of `main` (main.py lines 148-154)

`round(similarity, 2)` and `str(...)` are modelled over `ℚ` with exact
decimal semantics: `round` is round-half-to-even at two decimal places and
`str` renders the shortest decimal form (no trailing zero), as Python does
for these values. -/

/-- Round-half-to-even to an integer (Python's `round` tie-breaking). -/
def roundHalfEven (q : ℚ) : ℤ :=
  if q - ⌊q⌋ < 1 / 2 then ⌊q⌋
  else if 1 / 2 < q - ⌊q⌋ then ⌊q⌋ + 1
  else if Even ⌊q⌋ then ⌊q⌋ else ⌊q⌋ + 1

/-- Model of `round(similarity, 2)`: the score in hundredths, half-to-even. -/
def roundedHundredths (q : ℚ) : ℤ :=
  roundHalfEven (100 * q)

/-- Value of `round(similarity, 2)` as a rational. -/
def pyRound2 (q : ℚ) : ℚ :=
  (roundedHundredths q : ℚ) / 100

/-- Model of `str` applied to a score of `k` hundredths, `0 ≤ k ≤ 100`:
the integer part, a dot, and one or two fractional digits (Python's float
repr drops a trailing zero: `str(0.5) = "0.5"`, `str(1.0) = "1.0"`). -/
def renderHundredths (k : ℤ) : List Char :=
  let n := k.toNat
  Nat.digitChar (n / 100) :: '.' ::
    (if n % 100 % 10 = 0 then [Nat.digitChar (n % 100 / 10)]
     else [Nat.digitChar (n % 100 / 10), Nat.digitChar (n % 100 % 10)])

/-- The content `main` writes to the result file:
`str(round(similarity, 2))`. -/
def mainOutput (sim : ℚ) : List Char :=
  renderHundredths (roundedHundredths sim)

/-- Digit string to natural number. -/
def digitsToNat (ds : List Char) : Nat :=
  ds.foldl (fun a c => 10 * a + (c.toNat - 48)) 0

/-- Parser for a plain decimal numeral `digits.digits`; fails on any other
content.  Used to state that the persisted output is exactly a decimal
rendering of the rounded score, with no additional metadata. -/
def parseDecimal (cs : List Char) : Option ℚ :=
  let intDs := cs.takeWhile Char.isDigit
  let rest := cs.dropWhile Char.isDigit
  match rest with
  | '.' :: fs =>
    if intDs ≠ [] ∧ fs ≠ [] ∧ fs.all Char.isDigit then
      some (mkRat (digitsToNat intDs * 10 ^ fs.length + digitsToNat fs)
        (10 ^ fs.length))
    else none
  | _ => none

/-! ## Lemmas about `pyStrip` -/

theorem pyStrip_eq_nil_iff (l : List Char) :
    pyStrip l = [] ↔ ∀ c ∈ l, pyIsSpace c := by
  unfold pyStrip
  rw [List.rdropWhile_eq_nil_iff]
  constructor
  · intro h
    rw [← List.dropWhile_eq_nil_iff (p := pyIsSpace) (l := l)]
    cases hdw : List.dropWhile pyIsSpace l with
    | nil => rfl
    | cons c t =>
      exfalso
      have hne : List.dropWhile pyIsSpace l ≠ [] := by simp [hdw]
      have hc := List.head_dropWhile_not pyIsSpace l hne
      simp [h _ (List.head_mem hne)] at hc
  · intro h c hc
    exact h c ((List.dropWhile_sublist pyIsSpace).subset hc)

/-! ## C2: the empty/whitespace-only short-circuits -/

/-- C2: `calculate` returns exactly 1.0 when both inputs are empty or
whitespace-only and exactly 0.0 when exactly one of them is; in both cases
the branch taken is the corresponding short-circuit, so the vectorization
stage is not invoked. -/
theorem claim_C2 (t1 t2 : List Char) :
    (pyStrip t1 = [] → pyStrip t2 = [] →
      calculate t1 t2 = some 1 ∧ calcBranch t1 t2 = CalcBranch.bothEmpty) ∧
    ((pyStrip t1 = [] ∧ pyStrip t2 ≠ []) ∨ (pyStrip t1 ≠ [] ∧ pyStrip t2 = []) →
      calculate t1 t2 = some 0 ∧ calcBranch t1 t2 = CalcBranch.oneEmpty) := by
  constructor
  · intro h1 h2
    have hb : calcBranch t1 t2 = CalcBranch.bothEmpty := by
      unfold calcBranch
      rw [if_pos ⟨h1, h2⟩]
    exact ⟨by simp [calculate, hb], hb⟩
  · intro h
    have hb : calcBranch t1 t2 = CalcBranch.oneEmpty := by
      unfold calcBranch
      rcases h with ⟨h1, h2⟩ | ⟨h1, h2⟩
      · rw [if_neg (by tauto), if_pos (Or.inl h1)]
      · rw [if_neg (by tauto), if_pos (Or.inr h2)]
    exact ⟨by simp [calculate, hb], hb⟩

/-- Witness for C2 at `t1 = ""`, `t2 = "x"`. -/
theorem claim_C2_witness :
    calculate [] [ 'x' ] = some 0 ∧ calcBranch [] [ 'x' ] = CalcBranch.oneEmpty :=
  (claim_C2 [] [ 'x' ]).2 (Or.inl (by constructor <;> decide))

/-! ## C6: symmetry -/

theorem vocab_comm (A B : List (List Char)) : vocab A B = vocab B A := by
  simp [vocab, List.toFinset_append, Finset.union_comm]

theorem docFreq_comm (t : List Char) (A B : List (List Char)) :
    docFreq t A B = docFreq t B A :=
  add_comm _ _

theorem idf_comm (t : List Char) (A B : List (List Char)) :
    idf t A B = idf t B A := by
  unfold idf
  rw [docFreq_comm]

theorem tfidfWeight_comm (t : List Char) (d A B : List (List Char)) :
    tfidfWeight t d A B = tfidfWeight t d B A := by
  unfold tfidfWeight
  rw [idf_comm]

theorem tfidfNorm_comm (d A B : List (List Char)) :
    tfidfNorm d A B = tfidfNorm d B A := by
  unfold tfidfNorm
  rw [vocab_comm]
  congr 1
  exact Finset.sum_congr rfl (fun t _ => by rw [tfidfWeight_comm])

theorem tfidfUnit_comm (t : List Char) (d A B : List (List Char)) :
    tfidfUnit t d A B = tfidfUnit t d B A := by
  unfold tfidfUnit
  rw [tfidfNorm_comm, tfidfWeight_comm]

theorem tfidfScore_comm (A B : List (List Char)) :
    tfidfScore A B = tfidfScore B A := by
  unfold tfidfScore
  rw [vocab_comm]
  exact Finset.sum_congr rfl
    (fun t _ => by rw [tfidfUnit_comm t A, tfidfUnit_comm t B, mul_comm])

/-- C6: `calculate` is symmetric in its two arguments, on every input:
the short-circuit rules and the TF-IDF cosine similarity are symmetric. -/
theorem claim_C6 (t1 t2 : List Char) : calculate t1 t2 = calculate t2 t1 := by
  unfold calculate calcBranch
  by_cases h1 : pyStrip t1 = [] <;> by_cases h2 : pyStrip t2 = [] <;>
    simp only [h1, h2, if_pos, if_neg, and_true, and_false, true_and, false_and,
      and_self, or_true, true_or, or_false, false_or, if_true, if_false,
      not_true, not_false_iff, ite_true, ite_false]
  · by_cases hA : lowerTokens t1 = [] <;> by_cases hB : lowerTokens t2 = [] <;>
      simp only [hA, hB, and_self, and_true, and_false, true_and, false_and,
        if_true, if_false, ite_true, ite_false]
    · rw [tfidfScore_comm]
    · rw [tfidfScore_comm]
    · rw [tfidfScore_comm]

/-! ## C8: the stopword filter invariant -/

/-- C8: every token output by the segmentation filter is non-empty after
trimming and is not a stopword, and a word list consisting solely of
stopwords filters to the empty token stream. -/
theorem claim_C8 (words : List (List Char)) :
    (∀ w ∈ segmentWords words, pyStrip w ≠ [] ∧ w ∉ stopwords) ∧
    ((∀ w ∈ words, w ∈ stopwords) → segmentWords words = []) := by
  constructor
  · intro w hw
    simp only [segmentWords, List.mem_filter, Bool.and_eq_true, decide_eq_true_eq] at hw
    exact ⟨hw.2.2, hw.2.1⟩
  · intro h
    unfold segmentWords
    rw [List.filter_eq_nil_iff]
    intro w hw
    simp [h w hw]

/-- Witness for C8 at the all-stopword word list `["的", "了"]`. -/
theorem claim_C8_witness :
    (∀ w ∈ segmentWords [[ '的' ], [ '了' ]], pyStrip w ≠ [] ∧ w ∉ stopwords) ∧
    segmentWords [[ '的' ], [ '了' ]] = [] :=
  ⟨(claim_C8 _).1, (claim_C8 _).2 (by decide)⟩

/-! ## C7: idempotence of `preprocess` -/

theorem removeTagsF_eq_self : ∀ (n : Nat) (l : List Char),
    (∀ c ∈ l, c ≠ '<') → removeTagsF n l = l := by
  intro n
  induction n with
  | zero => intro l _; rfl
  | succ n ih =>
    intro l hl
    cases l with
    | nil => rfl
    | cons c cs =>
      have hc : c ≠ '<' := hl c (List.mem_cons_self _ _)
      simp only [removeTagsF, if_neg hc]
      rw [ih cs (fun d hd => hl d (List.mem_cons_of_mem _ hd))]

theorem removeTags_eq_self (l : List Char) (h : ∀ c ∈ l, c ≠ '<') :
    removeTags l = l :=
  removeTagsF_eq_self _ l h

theorem collapseWs_mem : ∀ (l : List Char), ∀ c ∈ collapseWs l,
    c = ' ' ∨ (c ∈ l ∧ pyIsSpace c = false) := by
  intro l
  induction l with
  | nil => intro c hc; simp [collapseWs] at hc
  | cons a l ih =>
    cases l with
    | nil =>
      intro c hc
      simp only [collapseWs, List.mem_singleton] at hc
      by_cases ha : pyIsSpace a
      · left
        rw [hc, if_pos ha]
      · right
        rw [hc, if_neg ha]
        exact ⟨List.mem_singleton_self a, by simpa using ha⟩
    | cons b m =>
      intro c hc
      by_cases h : (pyIsSpace a && pyIsSpace b) = true
      · rw [show collapseWs (a :: b :: m) = collapseWs (b :: m) by
          simp [collapseWs, h]] at hc
        rcases ih c hc with h1 | ⟨h2, h3⟩
        · exact Or.inl h1
        · exact Or.inr ⟨List.mem_cons_of_mem _ h2, h3⟩
      · rw [show collapseWs (a :: b :: m) =
            (if pyIsSpace a then ' ' else a) :: collapseWs (b :: m) by
          simp [collapseWs, h]] at hc
        rcases List.mem_cons.1 hc with h1 | h1
        · by_cases ha : pyIsSpace a
          · left
            rw [h1, if_pos ha]
          · right
            rw [h1, if_neg ha]
            exact ⟨List.mem_cons_self _ _, by simpa using ha⟩
        · rcases ih c h1 with h2 | ⟨h3, h4⟩
          · exact Or.inl h2
          · exact Or.inr ⟨List.mem_cons_of_mem _ h3, h4⟩

theorem collapseWs_cons_head (d : Char) (cs : List Char)
    (hd : pyIsSpace d = false) : ∃ t2, collapseWs (d :: cs) = d :: t2 := by
  cases cs with
  | nil => exact ⟨[], by simp [collapseWs, hd]⟩
  | cons e m => exact ⟨collapseWs (e :: m), by simp [collapseWs, hd]⟩

theorem collapseWs_chain : ∀ l : List Char,
    List.Chain' (fun a b => ¬(pyIsSpace a = true ∧ pyIsSpace b = true))
      (collapseWs l) := by
  intro l
  induction l with
  | nil => simp [collapseWs]
  | cons a l ih =>
    cases l with
    | nil => simp [collapseWs]
    | cons b m =>
      by_cases h : (pyIsSpace a && pyIsSpace b) = true
      · rw [show collapseWs (a :: b :: m) = collapseWs (b :: m) by
          simp [collapseWs, h]]
        exact ih
      · rw [show collapseWs (a :: b :: m) =
            (if pyIsSpace a then ' ' else a) :: collapseWs (b :: m) by
          simp [collapseWs, h]]
        rw [List.chain'_cons']
        refine ⟨?_, ih⟩
        intro y hy
        by_cases ha : pyIsSpace a
        · have hb : pyIsSpace b = false := by
            cases hpb : pyIsSpace b
            · rfl
            · exact absurd (by simp [ha, hpb] : (pyIsSpace a && pyIsSpace b) = true) h
          obtain ⟨t2, ht2⟩ := collapseWs_cons_head b m hb
          rw [ht2] at hy
          simp only [List.head?_cons, Option.mem_def, Option.some.injEq] at hy
          subst hy
          intro hcon
          rw [hb] at hcon
          exact Bool.false_ne_true hcon.2
        · intro hcon
          rw [if_neg ha] at hcon
          exact ha (by simpa using hcon.1)

theorem collapseWs_eq_self : ∀ l : List Char,
    List.Chain' (fun a b => ¬(pyIsSpace a = true ∧ pyIsSpace b = true)) l →
    (∀ c ∈ l, pyIsSpace c = true → c = ' ') → collapseWs l = l := by
  intro l
  induction l with
  | nil => intro _ _; rfl
  | cons a l ih =>
    cases l with
    | nil =>
      intro _ hsp
      simp only [collapseWs]
      by_cases ha : pyIsSpace a
      · rw [if_pos ha, hsp a (List.mem_singleton_self a) (by simpa using ha)]
      · rw [if_neg ha]
    | cons b m =>
      intro hch hsp
      have hR := List.chain'_cons.1 hch
      have hcond : (pyIsSpace a && pyIsSpace b) = false := by
        cases hA : pyIsSpace a <;> cases hB : pyIsSpace b <;> simp_all
      rw [show collapseWs (a :: b :: m) =
          (if pyIsSpace a then ' ' else a) :: collapseWs (b :: m) by
        simp [collapseWs, hcond]]
      rw [ih hR.2 (fun c hc => hsp c (List.mem_cons_of_mem _ hc))]
      congr 1
      by_cases ha : pyIsSpace a
      · rw [if_pos ha]
        exact (hsp a (List.mem_cons_self _ _) (by simpa using ha)).symm
      · rw [if_neg ha]

theorem pyStrip_contained (l : List Char) : pyStrip l <:+: l := by
  obtain ⟨t, ht⟩ := List.rdropWhile_prefix pyIsSpace (List.dropWhile pyIsSpace l)
  obtain ⟨s, hs⟩ := List.dropWhile_suffix (l := l) pyIsSpace
  refine ⟨s, t, ?_⟩
  show s ++ List.rdropWhile pyIsSpace (List.dropWhile pyIsSpace l) ++ t = l
  rw [List.append_assoc, ht, hs]

theorem pyStrip_idem (l : List Char) : pyStrip (pyStrip l) = pyStrip l := by
  cases hy : pyStrip l with
  | nil => simp [pyStrip]
  | cons c y' =>
    obtain ⟨t, ht⟩ := List.rdropWhile_prefix pyIsSpace (List.dropWhile pyIsSpace l)
    have ht' : pyStrip l ++ t = List.dropWhile pyIsSpace l := ht
    have hne : List.dropWhile pyIsSpace l ≠ [] := by
      rw [← ht', hy]
      simp
    have hc := List.head_dropWhile_not pyIsSpace l hne
    have hdl : List.dropWhile pyIsSpace l = c :: (y' ++ t) := by
      rw [← ht', hy]
      simp
    have hhq : (List.dropWhile pyIsSpace l).head? = some c := by
      rw [hdl]
      rfl
    have hc' : pyIsSpace c = false := by
      rw [List.head?_eq_head hne, Option.some.injEq] at hhq
      rwa [hhq] at hc
    have h2 : List.rdropWhile pyIsSpace (pyStrip l) = pyStrip l :=
      List.rdropWhile_idempotent pyIsSpace (List.dropWhile pyIsSpace l)
    rw [hy] at h2
    show List.rdropWhile pyIsSpace (List.dropWhile pyIsSpace (c :: y')) = c :: y'
    rw [List.dropWhile_cons, hc']
    simpa using h2

theorem preprocess_mem (x : List Char) :
    ∀ c ∈ preprocess x,
      isKeepChar c = true ∧ c ≠ '<' ∧ (pyIsSpace c = true → c = ' ') := by
  intro c hc
  have hc1 : c ∈ collapseWs (filterChars (removeTags x)) :=
    ((pyStrip_contained (collapseWs (filterChars (removeTags x)))).sublist).subset hc
  rcases collapseWs_mem _ c hc1 with h | ⟨h1, h2⟩
  · subst h
    exact ⟨by decide, by decide, fun _ => rfl⟩
  · have hk : isKeepChar c = true := List.of_mem_filter h1
    refine ⟨hk, ?_, ?_⟩
    · intro h0
      rw [h0] at hk
      exact absurd hk (by decide)
    · intro hs
      simp [h2] at hs

/-- C7: `preprocess` (strip HTML-tag shapes, remove characters outside
CJK/ASCII-letter/digit/whitespace, collapse whitespace runs, trim) is
idempotent. -/
theorem claim_C7 (x : List Char) : preprocess (preprocess x) = preprocess x := by
  have hmem := preprocess_mem x
  have h1 : removeTags (preprocess x) = preprocess x :=
    removeTags_eq_self _ (fun c hc => (hmem c hc).2.1)
  have h2 : filterChars (preprocess x) = preprocess x := by
    unfold filterChars
    rw [List.filter_eq_self]
    intro c hc
    exact (hmem c hc).1
  have hchain : List.Chain'
      (fun a b => ¬(pyIsSpace a = true ∧ pyIsSpace b = true)) (preprocess x) :=
    List.Chain'.infix (collapseWs_chain (filterChars (removeTags x)))
      (pyStrip_contained (collapseWs (filterChars (removeTags x))))
  have h3 : collapseWs (preprocess x) = preprocess x :=
    collapseWs_eq_self _ hchain (fun c hc => (hmem c hc).2.2)
  show pyStrip (collapseWs (filterChars (removeTags (preprocess x)))) = preprocess x
  rw [h1, h2, h3]
  exact pyStrip_idem (collapseWs (filterChars (removeTags x)))

/-! ## Value lemmas for the TF-IDF score -/

theorem docFreq_le_two (t : List Char) (A B : List (List Char)) :
    docFreq t A B ≤ 2 := by
  unfold docFreq
  split <;> split <;> omega

theorem one_le_idf (t : List Char) (A B : List (List Char)) : 1 ≤ idf t A B := by
  unfold idf
  have h0 : (0 : ℝ) < 1 + (docFreq t A B : ℝ) := by positivity
  have h1 : (1 : ℝ) ≤ (1 + 2) / (1 + (docFreq t A B : ℝ)) := by
    rw [le_div_iff₀ h0]
    have := docFreq_le_two t A B
    have : (docFreq t A B : ℝ) ≤ 2 := by exact_mod_cast this
    linarith
  have := Real.log_nonneg h1
  linarith

theorem idf_pos (t : List Char) (A B : List (List Char)) : 0 < idf t A B :=
  lt_of_lt_of_le one_pos (one_le_idf t A B)

theorem tfidfWeight_nonneg (t : List Char) (d A B : List (List Char)) :
    0 ≤ tfidfWeight t d A B :=
  mul_nonneg (Nat.cast_nonneg _) (idf_pos t A B).le

theorem tfidfNorm_nonneg (d A B : List (List Char)) : 0 ≤ tfidfNorm d A B :=
  Real.sqrt_nonneg _

theorem tfidfUnit_nonneg (t : List Char) (d A B : List (List Char)) :
    0 ≤ tfidfUnit t d A B := by
  unfold tfidfUnit
  split
  · exact le_refl 0
  · exact div_nonneg (tfidfWeight_nonneg t d A B) (tfidfNorm_nonneg d A B)

theorem sum_sq_tfidfUnit_eq_one (d A B : List (List Char))
    (h : tfidfNorm d A B ≠ 0) :
    ∑ t ∈ vocab A B, tfidfUnit t d A B ^ 2 = 1 := by
  have hS : (0 : ℝ) ≤ ∑ t ∈ vocab A B, tfidfWeight t d A B ^ 2 :=
    Finset.sum_nonneg (fun t _ => sq_nonneg _)
  have hSne : (∑ t ∈ vocab A B, tfidfWeight t d A B ^ 2) ≠ 0 := by
    intro h0
    apply h
    unfold tfidfNorm
    rw [h0, Real.sqrt_zero]
  have hsq : tfidfNorm d A B ^ 2 = ∑ t ∈ vocab A B, tfidfWeight t d A B ^ 2 :=
    Real.sq_sqrt hS
  calc ∑ t ∈ vocab A B, tfidfUnit t d A B ^ 2
      = ∑ t ∈ vocab A B, tfidfWeight t d A B ^ 2 / tfidfNorm d A B ^ 2 := by
        refine Finset.sum_congr rfl (fun t _ => ?_)
        unfold tfidfUnit
        rw [if_neg h, div_pow]
    _ = (∑ t ∈ vocab A B, tfidfWeight t d A B ^ 2) / tfidfNorm d A B ^ 2 :=
        (Finset.sum_div _ _ _).symm
    _ = 1 := by
        rw [hsq, div_self hSne]

theorem sum_sq_tfidfUnit_le_one (d A B : List (List Char)) :
    ∑ t ∈ vocab A B, tfidfUnit t d A B ^ 2 ≤ 1 := by
  by_cases h : tfidfNorm d A B = 0
  · have : ∀ t ∈ vocab A B, tfidfUnit t d A B ^ 2 = 0 := by
      intro t _
      unfold tfidfUnit
      rw [if_pos h]
      norm_num
    rw [Finset.sum_congr rfl this]
    simp
  · exact le_of_eq (sum_sq_tfidfUnit_eq_one d A B h)

theorem tfidfScore_nonneg (A B : List (List Char)) : 0 ≤ tfidfScore A B :=
  Finset.sum_nonneg
    (fun t _ => mul_nonneg (tfidfUnit_nonneg t A A B) (tfidfUnit_nonneg t B A B))

theorem tfidfScore_le_one (A B : List (List Char)) : tfidfScore A B ≤ 1 := by
  have hcs := Finset.sum_mul_sq_le_sq_mul_sq (vocab A B)
    (fun t => tfidfUnit t A A B) (fun t => tfidfUnit t B A B)
  have hA := sum_sq_tfidfUnit_le_one A A B
  have hB := sum_sq_tfidfUnit_le_one B A B
  have hBnn : (0 : ℝ) ≤ ∑ t ∈ vocab A B, tfidfUnit t B A B ^ 2 :=
    Finset.sum_nonneg (fun t _ => sq_nonneg _)
  have hsq : tfidfScore A B ^ 2 ≤ 1 := by
    refine le_trans hcs ?_
    exact mul_le_one₀ hA hBnn hB
  nlinarith [tfidfScore_nonneg A B, hsq, sq_nonneg (tfidfScore A B - 1)]

theorem tfidfNorm_ne_zero_of_mem (d A B : List (List Char)) (a : List Char)
    (had : a ∈ d) (hav : a ∈ vocab A B) : tfidfNorm d A B ≠ 0 := by
  have htf : 0 < termFreq a d := by
    unfold termFreq
    rw [List.count_pos_iff]
    exact had
  have hw : 0 < tfidfWeight a d A B := by
    unfold tfidfWeight
    have : (1 : ℝ) ≤ (termFreq a d : ℝ) := by exact_mod_cast htf
    nlinarith [idf_pos a A B]
  have hsum : 0 < ∑ t ∈ vocab A B, tfidfWeight t d A B ^ 2 := by
    have h1 : tfidfWeight a d A B ^ 2 ≤ ∑ t ∈ vocab A B, tfidfWeight t d A B ^ 2 :=
      Finset.single_le_sum (f := fun t => tfidfWeight t d A B ^ 2)
        (fun t _ => sq_nonneg _) hav
    nlinarith
  unfold tfidfNorm
  positivity

theorem tfidfScore_self (A : List (List Char)) (hA : A ≠ []) :
    tfidfScore A A = 1 := by
  obtain ⟨a, A', rfl⟩ := List.exists_cons_of_ne_nil hA
  have hav : a ∈ vocab (a :: A') (a :: A') := by
    simp [vocab]
  have hnorm : tfidfNorm (a :: A') (a :: A') (a :: A') ≠ 0 :=
    tfidfNorm_ne_zero_of_mem _ _ _ a (List.mem_cons_self _ _) hav
  unfold tfidfScore
  rw [Finset.sum_congr rfl (fun t _ => (pow_two (tfidfUnit t (a :: A') (a :: A') (a :: A'))).symm)]
  exact sum_sq_tfidfUnit_eq_one _ _ _ hnorm

/-! ## C5: bounds of the similarity score -/

/-- C5: whenever `calculate` returns a score, it lies in `[0, 1]`
(cosine similarity of vectors with non-negative components). -/
theorem claim_C5 (t1 t2 : List Char) (r : ℝ) (h : calculate t1 t2 = some r) :
    0 ≤ r ∧ r ≤ 1 := by
  unfold calculate at h
  cases hb : calcBranch t1 t2 <;> rw [hb] at h
  · rw [Option.some.injEq] at h
    subst h
    norm_num
  · rw [Option.some.injEq] at h
    subst h
    norm_num
  · cases h
  · rw [Option.some.injEq] at h
    subst h
    exact ⟨tfidfScore_nonneg _ _, tfidfScore_le_one _ _⟩

/-- Witness for C5 at `t1 = t2 = ""` (score 1). -/
theorem claim_C5_witness : (0 : ℝ) ≤ 1 ∧ (1 : ℝ) ≤ 1 :=
  claim_C5 [] [] 1
    (by unfold calculate; rw [show calcBranch [] [] = CalcBranch.bothEmpty from by decide])

/-! ## C4: self-similarity -/

/-- C4 (amended): the claim `score(A, A) ≈ 1.0 for every non-empty A` fails
when `A` yields no token of length at least 2 — `calculate` then raises
instead of returning a score.  The counterexample is `A = "天"`. -/
theorem claim_C4_counterexample :
    pyStrip [ '天' ] ≠ [] ∧ calculate [ '天' ] [ '天' ] = none := by
  constructor
  · decide
  · unfold calculate
    rw [show calcBranch [ '天' ] [ '天' ] = CalcBranch.emptyVocab from by decide]

/-- C4 (amended): for every non-empty (not whitespace-only) input `A` that
yields at least one token, `calculate A A` returns exactly 1. -/
theorem claim_C4 (t : List Char) (h1 : pyStrip t ≠ []) (h2 : lowerTokens t ≠ []) :
    calculate t t = some 1 := by
  have hb : calcBranch t t = CalcBranch.vectorize (lowerTokens t) (lowerTokens t) := by
    unfold calcBranch
    rw [if_neg (by tauto), if_neg (by tauto), if_neg (by tauto)]
  unfold calculate
  rw [hb]
  show some (tfidfScore (lowerTokens t) (lowerTokens t)) = some 1
  rw [tfidfScore_self _ h2]

/-- Witness for C4 at `t = "ab"`. -/
theorem claim_C4_witness : calculate [ 'a', 'b' ] [ 'a', 'b' ] = some 1 :=
  claim_C4 [ 'a', 'b' ] (by decide) (by decide)

/-! ## C3: totality of the vectorization stage -/

/-- C3 (corrected by the counterexample below): the claim that `calculate`
never fails on two non-blank inputs is false; the vectorizer raises on an
empty vocabulary, e.g. for the single-character inputs `"a"` and `"b"`. -/
theorem claim_C3_counterexample :
    pyStrip [ 'a' ] ≠ [] ∧ pyStrip [ 'b' ] ≠ [] ∧ calculate [ 'a' ] [ 'b' ] = none := by
  refine ⟨by decide, by decide, ?_⟩
  unfold calculate
  rw [show calcBranch [ 'a' ] [ 'b' ] = CalcBranch.emptyVocab from by decide]

/-- C3 (amended): for every pair of non-blank inputs in which at least one
document yields a token, `calculate` completes and returns a score. -/
theorem claim_C3 (t1 t2 : List Char) (h1 : pyStrip t1 ≠ []) (h2 : pyStrip t2 ≠ [])
    (h3 : lowerTokens t1 ≠ [] ∨ lowerTokens t2 ≠ []) :
    ∃ r : ℝ, calculate t1 t2 = some r := by
  have hb : calcBranch t1 t2 = CalcBranch.vectorize (lowerTokens t1) (lowerTokens t2) := by
    unfold calcBranch
    rw [if_neg (by tauto), if_neg (by tauto), if_neg (by tauto)]
  refine ⟨tfidfScore (lowerTokens t1) (lowerTokens t2), ?_⟩
  unfold calculate
  rw [hb]

/-- Witness for C3 at `t1 = "ab"`, `t2 = "c"` (one document tokenless). -/
theorem claim_C3_witness :
    ∃ r : ℝ, calculate [ 'a', 'b' ] [ 'c' ] = some r :=
  claim_C3 [ 'a', 'b' ] [ 'c' ] (by decide) (by decide) (Or.inl (by decide))

/-! ## Character lemmas for the analyzer -/

theorem char_toNat_ofNat {n : Nat} (h : n < 0xd800) :
    (Char.ofNat n).toNat = n := by
  rw [Char.ofNat, dif_pos (Or.inl h)]
  rfl

theorem wordChar_not_space (c : Char) (h : isWordChar c = true) :
    pyIsSpace c = false := by
  unfold isWordChar isCJK at h
  simp only [Bool.or_eq_true, Bool.and_eq_true, decide_eq_true_eq] at h
  unfold pyIsSpace
  rw [decide_eq_false_iff_not]
  simp only [spaceCodes, List.mem_cons, List.not_mem_nil, or_false]
  omega

theorem pyToLower_eq_self (c : Char) (h : ¬(0x41 ≤ c.toNat ∧ c.toNat ≤ 0x5A)) :
    pyToLower c = c := by
  unfold pyToLower
  rw [if_neg h]

theorem pyToLower_toNat (c : Char) (h : 0x41 ≤ c.toNat ∧ c.toNat ≤ 0x5A) :
    (pyToLower c).toNat = c.toNat + 32 := by
  unfold pyToLower
  rw [if_pos h]
  exact char_toNat_ofNat (by omega)

theorem pyIsSpace_pyToLower (c : Char) :
    pyIsSpace (pyToLower c) = pyIsSpace c := by
  by_cases h : 0x41 ≤ c.toNat ∧ c.toNat ≤ 0x5A
  · unfold pyIsSpace
    rw [pyToLower_toNat c h]
    have h1 : ¬(c.toNat + 32 ∈ spaceCodes) := by
      simp only [spaceCodes, List.mem_cons, List.not_mem_nil, or_false]
      omega
    have h2 : ¬(c.toNat ∈ spaceCodes) := by
      simp only [spaceCodes, List.mem_cons, List.not_mem_nil, or_false]
      omega
    rw [decide_eq_false h1, decide_eq_false h2]
  · rw [pyToLower_eq_self c h]

/-! ## Joining a token stream and re-tokenizing it -/

theorem mem_joinTokens_of_mem : ∀ (ts : List (List Char)) (t : List Char),
    t ∈ ts → ∀ c ∈ t, c ∈ joinTokens ts := by
  intro ts
  induction ts with
  | nil => intro t ht; simp at ht
  | cons u ts ih =>
    intro t ht c hc
    cases ts with
    | nil =>
      have ht' : t = u := by simpa using ht
      subst ht'
      simpa [joinTokens] using hc
    | cons v ts' =>
      rw [show joinTokens (u :: v :: ts') = u ++ ' ' :: joinTokens (v :: ts')
        from rfl]
      rcases List.mem_cons.1 ht with h1 | h1
      · subst h1
        exact List.mem_append_left _ hc
      · exact List.mem_append_right _ (List.mem_cons_of_mem _ (ih t h1 c hc))

theorem joinTokens_mem : ∀ (ts : List (List Char)) (c : Char),
    c ∈ joinTokens ts → c = ' ' ∨ ∃ t ∈ ts, c ∈ t := by
  intro ts
  induction ts with
  | nil => intro c hc; simp [joinTokens] at hc
  | cons u ts ih =>
    intro c hc
    cases ts with
    | nil =>
      right
      exact ⟨u, List.mem_cons_self _ _, by simpa [joinTokens] using hc⟩
    | cons v ts' =>
      rw [show joinTokens (u :: v :: ts') = u ++ ' ' :: joinTokens (v :: ts')
        from rfl] at hc
      rcases List.mem_append.1 hc with h1 | h1
      · exact Or.inr ⟨u, List.mem_cons_self _ _, h1⟩
      · rcases List.mem_cons.1 h1 with h2 | h2
        · exact Or.inl h2
        · rcases ih c h2 with h3 | ⟨w, hw, hcw⟩
          · exact Or.inl h3
          · exact Or.inr ⟨w, List.mem_cons_of_mem _ hw, hcw⟩

theorem map_pyToLower_joinTokens (ts : List (List Char))
    (h : ∀ t ∈ ts, ∀ c ∈ t, ¬(0x41 ≤ c.toNat ∧ c.toNat ≤ 0x5A)) :
    (joinTokens ts).map pyToLower = joinTokens ts := by
  have hfix : ∀ c ∈ joinTokens ts, pyToLower c = id c := by
    intro c hc
    rcases joinTokens_mem ts c hc with h1 | ⟨t, ht, hct⟩
    · subst h1
      decide
    · exact pyToLower_eq_self c (h t ht c hct)
  rw [List.map_congr_left hfix, List.map_id]

theorem splitRunsAux_allWord (t : List Char) : ∀ acc : List Char,
    (∀ c ∈ t, isWordChar c = true) → acc.reverse ++ t ≠ [] →
    splitRunsAux t acc = [acc.reverse ++ t] := by
  induction t with
  | nil =>
    intro acc _ hne
    rw [List.append_nil] at hne
    have hacc : acc ≠ [] := by
      intro h0
      rw [h0] at hne
      exact hne rfl
    simp [splitRunsAux, hacc]
  | cons c cs ih =>
    intro acc hw hne
    have hc : isWordChar c = true := hw c (List.mem_cons_self _ _)
    show (if isWordChar c then splitRunsAux cs (c :: acc)
      else if acc = [] then splitRunsAux cs []
      else acc.reverse :: splitRunsAux cs []) = [acc.reverse ++ c :: cs]
    rw [if_pos hc, ih (c :: acc) (fun d hd => hw d (List.mem_cons_of_mem _ hd))
      (by simp)]
    simp

theorem splitRunsAux_append_space (t : List Char) : ∀ (acc r : List Char),
    (∀ c ∈ t, isWordChar c = true) → acc.reverse ++ t ≠ [] →
    splitRunsAux (t ++ ' ' :: r) acc = (acc.reverse ++ t) :: splitRunsAux r [] := by
  induction t with
  | nil =>
    intro acc r _ hne
    rw [List.append_nil] at hne
    have hacc : acc ≠ [] := by
      intro h0
      rw [h0] at hne
      exact hne rfl
    have hsp : isWordChar ' ' = false := by decide
    show splitRunsAux (' ' :: r) acc = (acc.reverse ++ []) :: splitRunsAux r []
    simp [splitRunsAux, hsp, hacc]
  | cons c cs ih =>
    intro acc r hw hne
    have hc : isWordChar c = true := hw c (List.mem_cons_self _ _)
    show (if isWordChar c then splitRunsAux (cs ++ ' ' :: r) (c :: acc)
      else if acc = [] then splitRunsAux (cs ++ ' ' :: r) []
      else acc.reverse :: splitRunsAux (cs ++ ' ' :: r) []) =
      (acc.reverse ++ c :: cs) :: splitRunsAux r []
    rw [if_pos hc, ih (c :: acc) r (fun d hd => hw d (List.mem_cons_of_mem _ hd))
      (by simp)]
    simp

theorem splitRuns_joinTokens : ∀ ts : List (List Char), ts ≠ [] →
    (∀ t ∈ ts, t ≠ [] ∧ ∀ c ∈ t, isWordChar c = true) →
    splitRuns (joinTokens ts) = ts := by
  intro ts
  induction ts with
  | nil => intro h; exact absurd rfl h
  | cons t ts ih =>
    intro _ hts
    obtain ⟨htne, htw⟩ := hts t (List.mem_cons_self _ _)
    cases ts with
    | nil =>
      show splitRunsAux t [] = [t]
      rw [splitRunsAux_allWord t [] htw (by simpa using htne)]
      simp
    | cons u ts' =>
      show splitRunsAux (joinTokens (t :: u :: ts')) [] = t :: u :: ts'
      rw [show joinTokens (t :: u :: ts') = t ++ ' ' :: joinTokens (u :: ts')
        from rfl]
      rw [splitRunsAux_append_space t [] (joinTokens (u :: ts')) htw
        (by simpa using htne)]
      have hih := ih (by simp) (fun x hx => hts x (List.mem_cons_of_mem _ hx))
      rw [show splitRunsAux (joinTokens (u :: ts')) [] =
        splitRuns (joinTokens (u :: ts')) from rfl, hih]
      simp

theorem extract_join (ts : List (List Char)) (hne : ts ≠ [])
    (h : ∀ t ∈ ts, 2 ≤ t.length ∧ ∀ c ∈ t, isWordChar c = true) :
    extractTokens (joinTokens ts) = ts := by
  unfold extractTokens
  rw [splitRuns_joinTokens ts hne (fun t ht => ⟨by
      intro h0
      have := (h t ht).1
      rw [h0] at this
      simp at this, (h t ht).2⟩)]
  rw [List.filter_eq_self]
  intro t ht
  rw [decide_eq_true_eq]
  exact (h t ht).1

theorem pyStrip_joinTokens_ne (ts : List (List Char)) (hne : ts ≠ [])
    (h : ∀ t ∈ ts, 2 ≤ t.length ∧ ∀ c ∈ t, isWordChar c = true) :
    pyStrip (joinTokens ts) ≠ [] := by
  obtain ⟨t, ts', rfl⟩ := List.exists_cons_of_ne_nil hne
  obtain ⟨hlen, hw⟩ := h t (List.mem_cons_self _ _)
  have htne : t ≠ [] := by
    intro h0
    rw [h0] at hlen
    simp at hlen
  obtain ⟨c, t', rfl⟩ := List.exists_cons_of_ne_nil htne
  intro h0
  rw [pyStrip_eq_nil_iff] at h0
  have hc : pyIsSpace c = true :=
    h0 c (mem_joinTokens_of_mem _ _ (List.mem_cons_self _ _) c
      (List.mem_cons_self _ _))
  rw [wordChar_not_space c (hw c (List.mem_cons_self _ _))] at hc
  cases hc

/-! ## C1: the similarity value of the vectorize branch -/

/-- C1 (corrected by the counterexample below): `calculate` on the joined
token streams does not always equal the TF-IDF dot product over the
streams' own vocabulary: `TfidfVectorizer`'s token pattern drops
single-character tokens, so for the non-empty streams `["今"]`, `["今"]`
the call raises (empty vocabulary) instead of returning the spec value. -/
theorem claim_C1_counterexample :
    calculate (joinTokens [[ '今' ]]) (joinTokens [[ '今' ]]) ≠
      some (tfidfScore [[ '今' ]] [[ '今' ]]) := by
  intro h
  rw [show calculate (joinTokens [[ '今' ]]) (joinTokens [[ '今' ]]) = none by
    unfold calculate
    rw [show calcBranch (joinTokens [[ '今' ]]) (joinTokens [[ '今' ]]) =
      CalcBranch.emptyVocab from by decide]] at h
  cases h

/-- C1 (amended): for every pair of non-empty token streams whose tokens
have length at least 2 and consist of word characters with no ASCII
uppercase letter, `calculate` on the joined streams returns exactly the
dot product of the two L2-normalized TF-IDF vectors over the vocabulary of
distinct tokens, with `idf(t) = log((1 + N) / (1 + df(t))) + 1`. -/
theorem claim_C1 (ts1 ts2 : List (List Char)) (hne1 : ts1 ≠ []) (hne2 : ts2 ≠ [])
    (h : ∀ t ∈ ts1 ++ ts2, 2 ≤ t.length ∧
      ∀ c ∈ t, isWordChar c = true ∧ ¬(0x41 ≤ c.toNat ∧ c.toNat ≤ 0x5A)) :
    calculate (joinTokens ts1) (joinTokens ts2) = some (tfidfScore ts1 ts2) := by
  have h1 : ∀ t ∈ ts1, 2 ≤ t.length ∧ ∀ c ∈ t, isWordChar c = true :=
    fun t ht => ⟨(h t (List.mem_append_left _ ht)).1,
      fun c hc => ((h t (List.mem_append_left _ ht)).2 c hc).1⟩
  have h2 : ∀ t ∈ ts2, 2 ≤ t.length ∧ ∀ c ∈ t, isWordChar c = true :=
    fun t ht => ⟨(h t (List.mem_append_right _ ht)).1,
      fun c hc => ((h t (List.mem_append_right _ ht)).2 c hc).1⟩
  have hU1 : ∀ t ∈ ts1, ∀ c ∈ t, ¬(0x41 ≤ c.toNat ∧ c.toNat ≤ 0x5A) :=
    fun t ht c hc => ((h t (List.mem_append_left _ ht)).2 c hc).2
  have hU2 : ∀ t ∈ ts2, ∀ c ∈ t, ¬(0x41 ≤ c.toNat ∧ c.toNat ≤ 0x5A) :=
    fun t ht c hc => ((h t (List.mem_append_right _ ht)).2 c hc).2
  have hlow1 : lowerTokens (joinTokens ts1) = ts1 := by
    unfold lowerTokens
    rw [map_pyToLower_joinTokens ts1 hU1]
    exact extract_join ts1 hne1 h1
  have hlow2 : lowerTokens (joinTokens ts2) = ts2 := by
    unfold lowerTokens
    rw [map_pyToLower_joinTokens ts2 hU2]
    exact extract_join ts2 hne2 h2
  have hs1 : pyStrip (joinTokens ts1) ≠ [] := pyStrip_joinTokens_ne ts1 hne1 h1
  have hs2 : pyStrip (joinTokens ts2) ≠ [] := pyStrip_joinTokens_ne ts2 hne2 h2
  have hb : calcBranch (joinTokens ts1) (joinTokens ts2) =
      CalcBranch.vectorize ts1 ts2 := by
    unfold calcBranch
    rw [if_neg (by tauto), if_neg (by tauto), hlow1, hlow2, if_neg (by tauto)]
  unfold calculate
  rw [hb]

/-- Witness for C1 at the token streams `["ab"]` and `["ab", "cd"]`. -/
theorem claim_C1_witness :
    calculate (joinTokens [[ 'a', 'b' ]]) (joinTokens [[ 'a', 'b' ], [ 'c', 'd' ]]) =
      some (tfidfScore [[ 'a', 'b' ]] [[ 'a', 'b' ], [ 'c', 'd' ]]) :=
  claim_C1 [[ 'a', 'b' ]] [[ 'a', 'b' ], [ 'c', 'd' ]]
    (by decide) (by decide) (by decide)

/-! ## C10: case-insensitivity of the similarity score -/

theorem all_space_map_lower (t : List Char) :
    (∀ c ∈ t.map pyToLower, pyIsSpace c = true) ↔ ∀ c ∈ t, pyIsSpace c = true := by
  constructor
  · intro h c hc
    have := h (pyToLower c) (List.mem_map_of_mem _ hc)
    rwa [pyIsSpace_pyToLower] at this
  · intro h c hc
    obtain ⟨d, hd, rfl⟩ := List.mem_map.1 hc
    rw [pyIsSpace_pyToLower]
    exact h d hd

theorem pyStrip_nil_iff_of_map_lower (t t' : List Char)
    (hmap : t.map pyToLower = t'.map pyToLower) :
    pyStrip t = [] ↔ pyStrip t' = [] := by
  rw [pyStrip_eq_nil_iff, pyStrip_eq_nil_iff, ← all_space_map_lower t,
    ← all_space_map_lower t', hmap]

/-- C10: the similarity score is invariant under ASCII letter-case changes
of the inputs: if two inputs lowercase to the same character sequences,
`calculate` behaves identically on them (same score, same error
behaviour), because `TfidfVectorizer` lowercases before tokenizing and the
blank-input short-circuits ignore case. -/
theorem claim_C10 (t1 t2 t1' t2' : List Char)
    (h1 : t1.map pyToLower = t1'.map pyToLower)
    (h2 : t2.map pyToLower = t2'.map pyToLower) :
    calculate t1 t2 = calculate t1' t2' := by
  have hs1 := pyStrip_nil_iff_of_map_lower t1 t1' h1
  have hs2 := pyStrip_nil_iff_of_map_lower t2 t2' h2
  have hl1 : lowerTokens t1 = lowerTokens t1' := by
    unfold lowerTokens
    rw [h1]
  have hl2 : lowerTokens t2 = lowerTokens t2' := by
    unfold lowerTokens
    rw [h2]
  unfold calculate calcBranch
  by_cases a1 : pyStrip t1 = [] <;> by_cases a2 : pyStrip t2 = []
  · have b1 : pyStrip t1' = [] := hs1.mp a1
    have b2 : pyStrip t2' = [] := hs2.mp a2
    simp [a1, a2, b1, b2]
  · have b1 : pyStrip t1' = [] := hs1.mp a1
    have b2 : pyStrip t2' ≠ [] := fun h => a2 (hs2.mpr h)
    simp [a1, a2, b1, b2]
  · have b1 : pyStrip t1' ≠ [] := fun h => a1 (hs1.mpr h)
    have b2 : pyStrip t2' = [] := hs2.mp a2
    simp [a1, a2, b1, b2]
  · have b1 : pyStrip t1' ≠ [] := fun h => a1 (hs1.mpr h)
    have b2 : pyStrip t2' ≠ [] := fun h => a2 (hs2.mpr h)
    simp [a1, a2, b1, b2, hl1, hl2]

/-- Witness for C10 at `t1 = "AB"`, `t1' = "ab"`, `t2 = t2' = "cd"`. -/
theorem claim_C10_witness :
    calculate [ 'A', 'B' ] [ 'c', 'd' ] = calculate [ 'a', 'b' ] [ 'c', 'd' ] :=
  claim_C10 [ 'A', 'B' ] [ 'c', 'd' ] [ 'a', 'b' ] [ 'c', 'd' ]
    (by decide) (by decide)

/-! ## C9: the reporting boundary -/

theorem roundHalfEven_sub_le (q : ℚ) : |(roundHalfEven q : ℚ) - q| ≤ 1 / 2 := by
  have hf0 : (⌊q⌋ : ℚ) ≤ q := Int.floor_le q
  have hf1 : q < (⌊q⌋ : ℚ) + 1 := Int.lt_floor_add_one q
  unfold roundHalfEven
  split_ifs with h1 h2 h3
  · rw [abs_le]
    constructor <;> linarith
  · rw [abs_le]
    push_cast
    constructor <;> linarith
  · rw [abs_le]
    constructor <;> linarith [le_of_not_lt h1, le_of_not_lt h2]
  · rw [abs_le]
    push_cast
    constructor <;> linarith [le_of_not_lt h1, le_of_not_lt h2]

theorem roundHalfEven_nonneg (q : ℚ) (h : 0 ≤ q) : 0 ≤ roundHalfEven q := by
  have h0 : 0 ≤ ⌊q⌋ := Int.floor_nonneg.2 h
  unfold roundHalfEven
  split_ifs <;> omega

theorem roundHalfEven_le_hundred (q : ℚ) (h : q ≤ 100) :
    roundHalfEven q ≤ 100 := by
  have hf : ⌊q⌋ ≤ 100 := by
    have h1 : ⌊q⌋ ≤ ⌊(100 : ℚ)⌋ := Int.floor_le_floor h
    simpa using h1
  by_cases h99 : ⌊q⌋ ≤ 99
  · unfold roundHalfEven
    split_ifs <;> omega
  · have hf100 : ⌊q⌋ = 100 := by omega
    have hq : (100 : ℚ) ≤ q := by
      have := Int.floor_le q
      rw [hf100] at this
      exact_mod_cast this
    have hq0 : q - (⌊q⌋ : ℚ) < 1 / 2 := by
      rw [hf100]
      push_cast
      linarith
    unfold roundHalfEven
    rw [if_pos hq0, hf100]

theorem render_parse_roundtrip (n : ℕ) (h : n ≤ 100) :
    parseDecimal (renderHundredths (n : ℤ)) = some (mkRat n 100) := by
  have hall : ∀ m ∈ List.range 101,
      parseDecimal (renderHundredths ((m : ℕ) : ℤ)) = some (mkRat m 100) := by
    decide
  exact hall n (List.mem_range.2 (by omega))

/-- C9: on a successful run the persisted content is exactly the decimal
rendering of the similarity score rounded (half-to-even) to two decimal
places — it parses back as precisely the rounded score, with no extra
content — and the rounded value differs from the unrounded score by at
most half a hundredth (rounding happens only at this boundary). -/
theorem claim_C9 (sim : ℚ) (h0 : 0 ≤ sim) (h1 : sim ≤ 1) :
    parseDecimal (mainOutput sim) = some (pyRound2 sim) ∧
    |pyRound2 sim - sim| ≤ 1 / 200 := by
  have hk0 : 0 ≤ roundedHundredths sim :=
    roundHalfEven_nonneg _ (by linarith)
  have hk1 : roundedHundredths sim ≤ 100 :=
    roundHalfEven_le_hundred _ (by linarith)
  obtain ⟨n, hn⟩ : ∃ n : ℕ, roundedHundredths sim = (n : ℤ) :=
    ⟨(roundedHundredths sim).toNat, (Int.toNat_of_nonneg hk0).symm⟩
  have hn100 : n ≤ 100 := by
    rw [hn] at hk1
    exact_mod_cast hk1
  constructor
  · unfold mainOutput pyRound2
    rw [hn, render_parse_roundtrip n hn100, Rat.mkRat_eq_div]
    push_cast
    rfl
  · have habs := roundHalfEven_sub_le (100 * sim)
    rw [abs_le] at habs
    unfold pyRound2 roundedHundredths
    rw [abs_le]
    constructor <;> linarith [habs.1, habs.2]

/-- Witness for C9 at the score `0`. -/
theorem claim_C9_witness :
    parseDecimal (mainOutput 0) = some (pyRound2 0) ∧
    |pyRound2 0 - 0| ≤ 1 / 200 :=
  claim_C9 0 (le_refl 0) zero_le_one
